import Mathlib

/-!
Verification of the detective-h core: a shallow embedding of the two hash
engines (src/core/blake_hash/src/internal/blake3.c and
src/core/clang_module/src/internal/blake2b.c) and of the batch-matching
layer (src/core/blake_hash/src/detective_core.c), with theorems settling
the specification's claims about them.

Machine integers are modelled as Nat with explicit reduction modulo 2^32
or 2^64 where C arithmetic overflows; byte buffers are lists of Nat; a
fallible C path (stack underflow, a loop that cannot make progress)
surfaces as an Except / Option value.
-/

set_option maxRecDepth 4000

/-- 2^32, the modulus of C uint32_t arithmetic. -/
def M32 : Nat := 2 ^ 32

/-- 2^64, the modulus of C uint64_t arithmetic. -/
def M64 : Nat := 2 ^ 64

/-- The four little-endian bytes of a 32-bit word, as written by the
byte-serialisation loops of blake3.c. -/
def le32 (w : Nat) : List Nat :=
  [w % 256, (w >>> 8) % 256, (w >>> 16) % 256, (w >>> 24) % 256]

/-- A 32-bit word assembled from four little-endian bytes
(blake3.c block-word loads). -/
def load32 (b0 b1 b2 b3 : Nat) : Nat :=
  b0 ||| (b1 <<< 8) ||| (b2 <<< 16) ||| (b3 <<< 24)

/-- rotr32 from blake3.c: (w >> c) | (w << (32 - c)) on uint32_t. -/
def rotr32 (w c : Nat) : Nat :=
  ((w >>> c) ||| (w <<< (32 - c))) % M32

/-- memcpy(&buf[pos], bytes, n): overwrite successive list positions. -/
def writeBytes (buf : List Nat) (pos : Nat) : List Nat → List Nat
  | [] => buf
  | x :: xs => writeBytes (buf.set pos x) (pos + 1) xs

/-- blake3_IV from blake3.c. -/
def blake3_IV : List Nat :=
  [0x6A09E667, 0xBB67AE85, 0x3C6EF372, 0xA54FF53A,
   0x510E527F, 0x9B05688C, 0x1F83D9AB, 0x5BE0CD19]

/-- blake3_msg_schedule from blake3.c (7 rounds x 16 indices). -/
def blake3_msg_schedule : List (List Nat) :=
  [[0, 1, 2, 3, 4, 5, 6, 7, 8, 9, 10, 11, 12, 13, 14, 15],
   [2, 6, 3, 10, 7, 0, 4, 13, 1, 11, 12, 5, 9, 14, 15, 8],
   [3, 4, 10, 12, 13, 2, 7, 14, 6, 5, 9, 0, 11, 15, 8, 1],
   [10, 7, 12, 9, 14, 3, 13, 15, 4, 0, 11, 2, 5, 8, 1, 6],
   [12, 13, 9, 11, 15, 10, 14, 8, 7, 2, 5, 3, 0, 1, 6, 4],
   [9, 14, 11, 5, 8, 12, 15, 1, 13, 3, 0, 10, 2, 6, 4, 7],
   [11, 15, 5, 0, 1, 9, 8, 6, 14, 10, 2, 12, 3, 4, 7, 13]]

/-- Flag constants of enum blake3_flags. -/
def CHUNK_START : Nat := 1

/-- CHUNK_END flag. -/
def CHUNK_END : Nat := 2

/-- PARENT flag. -/
def PARENT : Nat := 4

/-- ROOT flag. -/
def ROOT : Nat := 8

/-- The g quarter-round of blake3.c, acting on a 16-word state list; each
statement reads the state as already updated by the previous one, exactly
as the C sequence of assignments does. -/
def blake3_g (st : List Nat) (a b c d x y : Nat) : List Nat :=
  let s1 := st.set a ((st.getD a 0 + st.getD b 0 + x) % M32)
  let s2 := s1.set d (rotr32 ((s1.getD d 0) ^^^ (s1.getD a 0)) 16)
  let s3 := s2.set c ((s2.getD c 0 + s2.getD d 0) % M32)
  let s4 := s3.set b (rotr32 ((s3.getD b 0) ^^^ (s3.getD c 0)) 12)
  let s5 := s4.set a ((s4.getD a 0 + s4.getD b 0 + y) % M32)
  let s6 := s5.set d (rotr32 ((s5.getD d 0) ^^^ (s5.getD a 0)) 8)
  let s7 := s6.set c ((s6.getD c 0 + s6.getD d 0) % M32)
  s7.set b (rotr32 ((s7.getD b 0) ^^^ (s7.getD c 0)) 7)

/-- round_fn from blake3.c: column mixing then diagonal mixing, message
words selected through blake3_msg_schedule. -/
def blake3_round_fn (st msg : List Nat) (round : Nat) : List Nat :=
  let sch := blake3_msg_schedule.getD round []
  let m := fun i => msg.getD (sch.getD i 0) 0
  let st := blake3_g st 0 4 8 12 (m 0) (m 1)
  let st := blake3_g st 1 5 9 13 (m 2) (m 3)
  let st := blake3_g st 2 6 10 14 (m 4) (m 5)
  let st := blake3_g st 3 7 11 15 (m 6) (m 7)
  let st := blake3_g st 0 5 10 15 (m 8) (m 9)
  let st := blake3_g st 1 6 11 12 (m 10) (m 11)
  let st := blake3_g st 2 7 8 13 (m 12) (m 13)
  blake3_g st 3 4 9 14 (m 14) (m 15)

/-- The first n 32-bit words of a byte block, little-endian
(the block_words conversion loops of blake3.c, and the word reloads of
parent_cv / blake3_hasher_update / blake3_hasher_finalize). -/
def words_of_block (block : List Nat) (n : Nat) : List Nat :=
  (List.range n).map fun i =>
    load32 (block.getD (4 * i) 0) (block.getD (4 * i + 1) 0)
      (block.getD (4 * i + 2) 0) (block.getD (4 * i + 3) 0)

/-- The raw little-endian bytes of a list of 32-bit words, as memcpy of a
uint32_t array reads them. -/
def bytesOfWords (ws : List Nat) : List Nat :=
  ws.foldr (fun w acc => le32 w ++ acc) []

/-- The shared 16-word state setup and 7 compression rounds of
blake3_compress_in_place / blake3_compress_xof: cv then blake3_IV, the
counter halves, block length and flags in words 12-15. -/
def blake3_core (cv block : List Nat) (block_len counter flags : Nat) : List Nat :=
  let st0 := cv ++ blake3_IV
  let st1 := (((st0.set 12 (counter % M32)).set 13 ((counter >>> 32) % M32)).set
      14 block_len).set 15 flags
  let bw := words_of_block block 16
  (List.range 7).foldl (fun s r => blake3_round_fn s bw r) st1

/-- blake3_compress_in_place: the new 8-word chaining value
cv[i] = state[i] ^ state[i+8]. -/
def blake3_compress_in_place (cv block : List Nat) (block_len counter flags : Nat) :
    List Nat :=
  let st := blake3_core cv block block_len counter flags
  (List.range 8).map fun i => (st.getD i 0) ^^^ (st.getD (i + 8) 0)

/-- One output word of blake3_compress_xof: the C loop computes
word = state[i] ^ state[i % 8] (so for i < 8 a word XORed with itself). -/
def xof_word (st : List Nat) (i : Nat) : Nat :=
  (st.getD i 0) ^^^ (st.getD (i % 8) 0)

/-- blake3_compress_xof: 64 output bytes, the 16 words of the output loop
serialised little-endian (loop over i = 0..15 unrolled). -/
def blake3_compress_xof (cv block : List Nat) (block_len counter flags : Nat) :
    List Nat :=
  let st := blake3_core cv block block_len counter flags
  le32 (xof_word st 0) ++ le32 (xof_word st 1) ++ le32 (xof_word st 2) ++
  le32 (xof_word st 3) ++ le32 (xof_word st 4) ++ le32 (xof_word st 5) ++
  le32 (xof_word st 6) ++ le32 (xof_word st 7) ++ le32 (xof_word st 8) ++
  le32 (xof_word st 9) ++ le32 (xof_word st 10) ++ le32 (xof_word st 11) ++
  le32 (xof_word st 12) ++ le32 (xof_word st 13) ++ le32 (xof_word st 14) ++
  le32 (xof_word st 15)

/-- A failure of the C code that a shallow embedding must surface: the
carry-merge loop of add_chunk_cv popping from an empty chaining-value
stack (cv_stack_len underflows and the code indexes far out of bounds),
or an update loop iteration that consumes no input and therefore never
terminates (unreachable from valid states). -/
inductive CErr where
  | stackUnderflow
  | stuck
deriving DecidableEq

instance {ε α : Type} [DecidableEq ε] [DecidableEq α] : DecidableEq (Except ε α)
  | .error a, .error b =>
    if h : a = b then .isTrue (congrArg Except.error h)
    else .isFalse fun hh => h (Except.error.inj hh)
  | .error _, .ok _ => .isFalse Except.noConfusion
  | .ok _, .error _ => .isFalse Except.noConfusion
  | .ok a, .ok b =>
    if h : a = b then .isTrue (congrArg Except.ok h)
    else .isFalse fun hh => h (Except.ok.inj hh)

/-- blake3_chunk_state from blake3.h: cv (8 words), chunk counter, the
64-byte block buffer with its fill length, blocks compressed in this
chunk (uint8_t), and the flag byte. -/
structure blake3_chunk_state where
  cv : List Nat
  chunk_counter : Nat
  buf : List Nat
  buf_len : Nat
  blocks_compressed : Nat
  flags : Nat
deriving DecidableEq

/-- blake3_hasher from blake3.h: the key words, the active chunk, and the
chaining-value stack; the stack is the list of 8-word CVs with the most
recently pushed one at the head (cv_stack_len is its length). -/
structure blake3_hasher where
  key : List Nat
  chunk : blake3_chunk_state
  cv_stack : List (List Nat)
deriving DecidableEq

/-- chunk_state_init from blake3.c. -/
def chunk_state_init (key : List Nat) (flags : Nat) : blake3_chunk_state :=
  { cv := key, chunk_counter := 0, buf := List.replicate 64 0, buf_len := 0,
    blocks_compressed := 0, flags := flags }

/-- The head of each chunk_state_update loop iteration: when the buffer
holds a full block, compress it (CHUNK_START on the chunk's first block;
blocks_compressed is a uint8_t, hence the mod 256) and reset buf_len. -/
def chunk_try_compress (c : blake3_chunk_state) : blake3_chunk_state :=
  if c.buf_len = 64 then
    let block_flags := c.flags |||
      (if c.blocks_compressed = 0 then CHUNK_START else 0)
    { c with
      cv := blake3_compress_in_place c.cv c.buf 64 c.chunk_counter block_flags,
      blocks_compressed := (c.blocks_compressed + 1) % 256,
      buf_len := 0 }
  else c

/-- The while loop of chunk_state_update, driven by explicit fuel so that
the recursion is structural (and hence reducible by the kernel). Each
iteration runs chunk_try_compress, then copies
take = min(input_len, 64 - buf_len) bytes into the buffer. Every
iteration consumes at least one byte (take = 0, which would loop forever
in C, is the CErr.stuck error), so fuel = input length always suffices
and the fuel-exhausted case is unreachable from the wrapper below. -/
def chunk_state_update_go : Nat → blake3_chunk_state → List Nat →
    Except CErr blake3_chunk_state
  | _, c, [] => .ok c
  | 0, _, _ :: _ => .error .stuck
  | fuel + 1, c, input@(_ :: _) =>
    let c1 := chunk_try_compress c
    let want := 64 - c1.buf_len
    let take := min input.length want
    if take = 0 then .error .stuck
    else
      chunk_state_update_go fuel
        { c1 with buf := writeBytes c1.buf c1.buf_len (input.take take),
                  buf_len := c1.buf_len + take }
        (input.drop take)

/-- chunk_state_update from blake3.c. -/
def chunk_state_update (c : blake3_chunk_state) (input : List Nat) :
    Except CErr blake3_chunk_state :=
  chunk_state_update_go input.length c input

/-- chunk_state_output from blake3.c: the 64-byte extended output of the
chunk's final (buffered) block, with CHUNK_END (and CHUNK_START if no
block was compressed yet). -/
def chunk_state_output (c : blake3_chunk_state) : List Nat :=
  let block_flags := c.flags |||
    (if c.blocks_compressed = 0 then CHUNK_START else 0) ||| CHUNK_END
  blake3_compress_xof c.cv c.buf c.buf_len c.chunk_counter block_flags

/-- parent_output from blake3.c. -/
def parent_output (block key : List Nat) (flags : Nat) : List Nat :=
  blake3_compress_xof key block 64 0 (flags ||| PARENT)

/-- parent_cv from blake3.c: the first 8 words of the parent's extended
output. (In C the 64-byte output is written into a 32-byte local,
overflowing it; the code only ever reads the first 32 bytes back.) -/
def parent_cv (block key : List Nat) (flags : Nat) : List Nat :=
  words_of_block (parent_output block key flags) 8

/-- The while loop of add_chunk_cv: while (total_chunks & 1), pop the most
recent stack entry, merge it with new_cv through parent_cv, and halve the
counter. When the pop happens with an empty stack the C code underflows
cv_stack_len (uint8_t) and indexes outside cv_stack: CErr.stackUnderflow.
Returns the remaining stack and the merged value. -/
def add_chunk_cv_loop_go (key : List Nat) (flags : Nat) :
    Nat → List (List Nat) → List Nat → Nat →
    Except CErr (List (List Nat) × List Nat)
  | 0, stack, new_cv, total =>
    if total % 2 = 1 then .error .stuck else .ok (stack, new_cv)
  | fuel + 1, stack, new_cv, total =>
    if total % 2 = 1 then
      match stack with
      | [] => .error .stackUnderflow
      | top :: rest =>
        add_chunk_cv_loop_go key flags fuel rest
          (parent_cv (bytesOfWords top ++ bytesOfWords new_cv) key flags)
          (total >>> 1)
    else .ok (stack, new_cv)

/-- The carry loop entered with fuel = total_chunks, which bounds its
iteration count (the counter at least halves each time), so the
fuel-exhausted CErr.stuck case is unreachable. -/
def add_chunk_cv_loop (key : List Nat) (flags : Nat)
    (stack : List (List Nat)) (new_cv : List Nat) (total : Nat) :
    Except CErr (List (List Nat) × List Nat) :=
  add_chunk_cv_loop_go key flags total stack new_cv total

/-- add_chunk_cv from blake3.c: run the carry loop, then push the merged
value (push = cons, the head being the most recent entry). -/
def add_chunk_cv (s : blake3_hasher) (new_cv : List Nat) (total_chunks : Nat) :
    Except CErr blake3_hasher :=
  (add_chunk_cv_loop s.key s.chunk.flags s.cv_stack new_cv total_chunks).map
    fun p => { s with cv_stack := p.2 :: p.1 }

/-- blake3_hasher_init from blake3.c (plain mode: key = IV, flags 0). -/
def blake3_hasher_init : blake3_hasher :=
  { key := blake3_IV, chunk := chunk_state_init blake3_IV 0, cv_stack := [] }

/-- blake3_hasher_update from blake3.c: while input remains, if the active
chunk holds 16 compressed-or-buffered blocks (buf_len = 64 and
blocks_compressed = 15), fold its chaining value into the stack via
add_chunk_cv with total_chunks = chunk_counter + 1, re-init the chunk and
increment its (freshly zeroed) counter; then feed
take = min(input_len, 1024 - consumed) bytes to chunk_state_update. -/
def blake3_hasher_update_go : Nat → blake3_hasher → List Nat →
    Except CErr blake3_hasher
  | _, s, [] => .ok s
  | 0, _, _ :: _ => .error .stuck
  | fuel + 1, s, input@(_ :: _) =>
    let step : Except CErr blake3_hasher :=
      if s.chunk.buf_len = 64 ∧ s.chunk.blocks_compressed = 15 then
        (add_chunk_cv s (words_of_block (chunk_state_output s.chunk) 8)
            (s.chunk.chunk_counter + 1)).map
          fun s' =>
            let c := chunk_state_init s'.key s'.chunk.flags
            { s' with chunk := { c with chunk_counter := c.chunk_counter + 1 } }
      else .ok s
    match step with
    | .error e => .error e
    | .ok s1 =>
      let want := 1024 - (s1.chunk.blocks_compressed * 64 + s1.chunk.buf_len)
      let take := min input.length want
      if take = 0 then .error .stuck
      else
        match chunk_state_update s1.chunk (input.take take) with
        | .error e => .error e
        | .ok c2 =>
          blake3_hasher_update_go fuel { s1 with chunk := c2 } (input.drop take)

/-- blake3_hasher_update entered with fuel = input length; every loop
iteration consumes at least one byte (take = 0 is the CErr.stuck error),
so the fuel-exhausted case is unreachable. -/
def blake3_hasher_update (s : blake3_hasher) (input : List Nat) :
    Except CErr blake3_hasher :=
  blake3_hasher_update_go input.length s input

/-- The XOF expansion loop of blake3_hasher_finalize: for counter = 1
while more than 64 bytes remain, emit a full 64-byte block at offset
64 * counter and subtract 64 (the C code always copies the full 64 bytes
here, because this_block_len is computed under out_len > 64). -/
def blake3_xof_loop_go (cvw block : List Nat) (flagsR : Nat) :
    Nat → Nat → Nat → List Nat
  | 0, _, _ => []
  | fuel + 1, out_len, counter =>
    if 64 < out_len then
      blake3_compress_xof cvw block 32 counter flagsR ++
        blake3_xof_loop_go cvw block flagsR fuel (out_len - 64) (counter + 1)
    else []

/-- The XOF loop entered with fuel = out_len, which bounds the iteration
count (out_len drops by 64 each time), so the fuel-exhausted [] case is
unreachable. -/
def blake3_xof_loop (cvw block : List Nat) (flagsR : Nat)
    (out_len counter : Nat) : List Nat :=
  blake3_xof_loop_go cvw block flagsR out_len out_len counter

/-- blake3_hasher_finalize from blake3.c: compute the current chunk's
chaining value, fold in every stack entry from most recent to oldest via
parent_cv, then expand with blake3_compress_xof over the root words with
the ROOT flag. The C root block is (uint8_t*)parent_nodes read for 64
bytes, i.e. the 32 bytes of the root words followed by 32 bytes of
adjacent stack memory (an out-of-bounds read): those indeterminate bytes
are the junk parameter. Returns the full sequence of bytes the code
writes, in offset order. -/
def blake3_hasher_finalize (s : blake3_hasher) (out_len : Nat) (junk : List Nat) :
    List Nat :=
  let chunk_cv_words := words_of_block (chunk_state_output s.chunk) 8
  let parent_nodes := s.cv_stack.foldl
    (fun pn cv => parent_cv (bytesOfWords cv ++ bytesOfWords pn) s.key s.chunk.flags)
    chunk_cv_words
  let root_block := bytesOfWords parent_nodes ++ junk
  let flagsR := s.chunk.flags ||| ROOT
  let wide0 := blake3_compress_xof parent_nodes root_block 32 0 flagsR
  wide0.take (min out_len 64) ++ blake3_xof_loop parent_nodes root_block flagsR out_len 1

/-- blake3 from blake3.c: init, one update, finalize. -/
def blake3 (input : List Nat) (out_len : Nat) (junk : List Nat) :
    Except CErr (List Nat) :=
  (blake3_hasher_update blake3_hasher_init input).map
    fun s => blake3_hasher_finalize s out_len junk

/-- The eight little-endian bytes of a 64-bit word (store64 of blake2b.c). -/
def le64 (w : Nat) : List Nat :=
  [w % 256, (w >>> 8) % 256, (w >>> 16) % 256, (w >>> 24) % 256,
   (w >>> 32) % 256, (w >>> 40) % 256, (w >>> 48) % 256, (w >>> 56) % 256]

/-- rotr64 from blake2b.c. -/
def rotr64 (w c : Nat) : Nat :=
  ((w >>> c) ||| (w <<< (64 - c))) % M64

/-- blake2b_IV from blake2b.c. -/
def blake2b_IV : List Nat :=
  [0x6a09e667f3bcc908, 0xbb67ae8584caa73b,
   0x3c6ef372fe94f82b, 0xa54ff53a5f1d36f1,
   0x510e527fade682d1, 0x9b05688c2b3e6c1f,
   0x1f83d9abfb41bd6b, 0x5be0cd19137e2179]

/-- blake2b_sigma from blake2b.c (12 rounds x 16 indices). -/
def blake2b_sigma : List (List Nat) :=
  [[0, 1, 2, 3, 4, 5, 6, 7, 8, 9, 10, 11, 12, 13, 14, 15],
   [14, 10, 4, 8, 9, 15, 13, 6, 1, 12, 0, 2, 11, 7, 5, 3],
   [11, 8, 12, 0, 5, 2, 15, 13, 10, 14, 3, 6, 7, 1, 9, 4],
   [7, 9, 3, 1, 13, 12, 11, 14, 2, 6, 5, 10, 4, 0, 15, 8],
   [9, 0, 5, 7, 2, 4, 10, 15, 14, 1, 11, 12, 6, 8, 3, 13],
   [2, 12, 6, 10, 0, 11, 8, 3, 4, 13, 7, 5, 15, 14, 1, 9],
   [12, 5, 1, 15, 14, 13, 4, 10, 0, 7, 6, 3, 9, 2, 8, 11],
   [13, 11, 7, 14, 12, 1, 3, 9, 5, 0, 15, 4, 8, 6, 2, 10],
   [6, 15, 14, 9, 11, 3, 0, 8, 12, 2, 13, 7, 1, 4, 10, 5],
   [10, 2, 8, 4, 7, 6, 1, 5, 15, 11, 9, 14, 3, 12, 13, 0],
   [0, 1, 2, 3, 4, 5, 6, 7, 8, 9, 10, 11, 12, 13, 14, 15],
   [14, 10, 4, 8, 9, 15, 13, 6, 1, 12, 0, 2, 11, 7, 5, 3]]

/-- blake2b_state from blake2b.h: chaining words h, counter t, final-block
flags f, the 128-byte buffer with fill length, and the requested output
length (last_node is never touched by this code). -/
structure blake2b_state where
  h : List Nat
  t0 : Nat
  t1 : Nat
  f0 : Nat
  f1 : Nat
  buf : List Nat
  buflen : Nat
  outlen : Nat
deriving DecidableEq

/-- The G macro of blake2b.c on the 16-word work vector v, message words
selected through blake2b_sigma; each assignment reads the vector as
updated by the previous one. -/
def blake2b_G (m : List Nat) (r i : Nat) (v : List Nat) (a b c d : Nat) :
    List Nat :=
  let x := m.getD ((blake2b_sigma.getD r []).getD (2 * i) 0) 0
  let y := m.getD ((blake2b_sigma.getD r []).getD (2 * i + 1) 0) 0
  let v1 := v.set a ((v.getD a 0 + v.getD b 0 + x) % M64)
  let v2 := v1.set d (rotr64 ((v1.getD d 0) ^^^ (v1.getD a 0)) 32)
  let v3 := v2.set c ((v2.getD c 0 + v2.getD d 0) % M64)
  let v4 := v3.set b (rotr64 ((v3.getD b 0) ^^^ (v3.getD c 0)) 24)
  let v5 := v4.set a ((v4.getD a 0 + v4.getD b 0 + y) % M64)
  let v6 := v5.set d (rotr64 ((v5.getD d 0) ^^^ (v5.getD a 0)) 16)
  let v7 := v6.set c ((v6.getD c 0 + v6.getD d 0) % M64)
  v7.set b (rotr64 ((v7.getD b 0) ^^^ (v7.getD c 0)) 63)

/-- One round of the blake2b_compress loop: the eight G applications. -/
def blake2b_round (m : List Nat) (r : Nat) (v : List Nat) : List Nat :=
  let v := blake2b_G m r 0 v 0 4 8 12
  let v := blake2b_G m r 1 v 1 5 9 13
  let v := blake2b_G m r 2 v 2 6 10 14
  let v := blake2b_G m r 3 v 3 7 11 15
  let v := blake2b_G m r 4 v 0 5 10 15
  let v := blake2b_G m r 5 v 1 6 11 12
  let v := blake2b_G m r 6 v 2 7 8 13
  blake2b_G m r 7 v 3 4 9 14

/-- One 64-bit little-endian message word of a 128-byte block. -/
def load64 (block : List Nat) (i : Nat) : Nat :=
  (block.getD (8 * i) 0) ||| ((block.getD (8 * i + 1) 0) <<< 8) |||
  ((block.getD (8 * i + 2) 0) <<< 16) ||| ((block.getD (8 * i + 3) 0) <<< 24) |||
  ((block.getD (8 * i + 4) 0) <<< 32) ||| ((block.getD (8 * i + 5) 0) <<< 40) |||
  ((block.getD (8 * i + 6) 0) <<< 48) ||| ((block.getD (8 * i + 7) 0) <<< 56)

/-- blake2b_compress from blake2b.c: build the work vector from h, the IV
and the t/f words, run 12 rounds, then fold v back into h. -/
def blake2b_compress (S : blake2b_state) (block : List Nat) : blake2b_state :=
  let m := (List.range 16).map (load64 block)
  let v := S.h ++
    [blake2b_IV.getD 0 0, blake2b_IV.getD 1 0, blake2b_IV.getD 2 0,
     blake2b_IV.getD 3 0,
     (blake2b_IV.getD 4 0) ^^^ S.t0, (blake2b_IV.getD 5 0) ^^^ S.t1,
     (blake2b_IV.getD 6 0) ^^^ S.f0, (blake2b_IV.getD 7 0) ^^^ S.f1]
  let v := (List.range 12).foldl (fun v r => blake2b_round m r v) v
  { S with
    h := (List.range 8).map fun i =>
      (S.h.getD i 0) ^^^ (v.getD i 0) ^^^ (v.getD (i + 8) 0) }

/-- blake2b_init from blake2b.c: fails (None) when outlen is 0 or over 64;
otherwise the state is zeroed and h is set to the raw IV. (Note: unlike
standard BLAKE2b there is no XOR with the parameter block, so h0 is not
IV0 ^ 0x01010000 ^ outlen.) -/
def blake2b_init (outlen : Nat) : Option blake2b_state :=
  if outlen = 0 ∨ outlen > 64 then none
  else
    some { h := blake2b_IV, t0 := 0, t1 := 0, f0 := 0, f1 := 0,
           buf := List.replicate 128 0, buflen := 0, outlen := outlen }

/-- The t-counter advance of blake2b.c: t[0] += n (uint64), carry into
t[1] when t[0] wrapped (detected as t[0] < n after the addition). -/
def blake2b_bump_t (S : blake2b_state) (n : Nat) : blake2b_state :=
  let t0n := (S.t0 + n) % M64
  { S with t0 := t0n, t1 := if t0n < n then (S.t1 + 1) % M64 else S.t1 }

/-- The inner while (inlen > 128) loop of blake2b_update: compress full
128-byte blocks straight from the input; a trailing block of exactly 128
bytes is left for the buffer. -/
def blake2b_update_while (S : blake2b_state) (input : List Nat) :
    blake2b_state × List Nat :=
  if _h : 128 < input.length then
    blake2b_update_while (blake2b_compress (blake2b_bump_t S 128) (input.take 128))
      (input.drop 128)
  else (S, input)
termination_by input.length
decreasing_by
  simp only [List.length_drop]
  omega

/-- blake2b_update from blake2b.c: when buflen + inlen would exceed 128,
fill the buffer, count and compress it, stream whole blocks with the
while loop, then buffer whatever remains. -/
def blake2b_update (S : blake2b_state) (input : List Nat) : blake2b_state :=
  let p :=
    if 128 < S.buflen + input.length then
      let fill := 128 - S.buflen
      let bufFull := writeBytes S.buf S.buflen (input.take fill)
      let S1 := blake2b_compress (blake2b_bump_t { S with buf := bufFull } 128) bufFull
      blake2b_update_while { S1 with buflen := 0 } (input.drop fill)
    else (S, input)
  if 0 < p.2.length then
    { p.1 with buf := writeBytes p.1.buf p.1.buflen p.2,
               buflen := p.1.buflen + p.2.length }
  else p.1

/-- blake2b_final from blake2b.c: fails (None) when outlen differs from
the one given at init. Only when the buffer is non-empty does it zero-pad
the buffer, advance t by buflen, set f[0] = (uint64_t)-1 and run the last
compression; it then serialises the 8 chaining words little-endian,
truncated to outlen. In particular for an empty input (buflen = 0) no
final compression happens at all and the raw IV is serialised. -/
def blake2b_final (S : blake2b_state) (outlen : Nat) : Option (List Nat) :=
  if S.outlen ≠ outlen then none
  else
    let S1 :=
      if 0 < S.buflen then
        let bufPadded :=
          if S.buflen < 128 then
            writeBytes S.buf S.buflen (List.replicate (128 - S.buflen) 0)
          else S.buf
        blake2b_compress
          { (blake2b_bump_t { S with buf := bufPadded } S.buflen) with f0 := M64 - 1 }
          bufPadded
      else S
    some ((S1.h.foldr (fun w acc => le64 w ++ acc) []).take S.outlen)

/-- Modelled from the spec: the finalize contract of section 4.1, which
says finalize "pads the remaining buffer with zero bytes, sets the
finalization flag to all-ones, runs one last compression, and serializes
the 8 chaining words" - i.e. the final compression happens
unconditionally, also for an empty buffer. Used only to compare the
code's blake2b_final against the specified behaviour. -/
def blake2b_final_specModel (S : blake2b_state) (outlen : Nat) :
    Option (List Nat) :=
  if S.outlen ≠ outlen then none
  else
    let bufPadded :=
      if S.buflen < 128 then
        writeBytes S.buf S.buflen (List.replicate (128 - S.buflen) 0)
      else S.buf
    let S1 := blake2b_compress
      { (blake2b_bump_t { S with buf := bufPadded } S.buflen) with f0 := M64 - 1 }
      bufPadded
    some ((S1.h.foldr (fun w acc => le64 w ++ acc) []).take S.outlen)

/-- One lowercase hex digit as printed by snprintf "%02x". -/
def hexDigit (n : Nat) : Char :=
  Char.ofNat (if n < 10 then 48 + n else 87 + n)

/-- bytes_to_hex from detective_core.c: two lowercase hex characters per
byte, most significant nibble first. -/
def bytes_to_hex (bs : List Nat) : List Char :=
  bs.flatMap fun b => [hexDigit (b / 16), hexDigit (b % 16)]

/-- blake3_hash_string from detective_core.c (for a non-NULL input, and
ignoring malloc failure): the 32-byte BLAKE3 digest of the input bytes,
rendered as a 64-character hex string. -/
def blake3_hash_string (s : List Nat) (junk : List Nat) :
    Except CErr (List Char) :=
  (blake3 s 32 junk).map bytes_to_hex

/-- The while loop of count_bits, with fuel making the recursion
structural; fuel = b suffices since b at least halves each iteration. -/
def count_bits_go : Nat → Nat → Nat
  | _, 0 => 0
  | 0, _ + 1 => 0
  | fuel + 1, b => b % 2 + count_bits_go fuel (b / 2)

/-- count_bits from detective_core.c: while (byte) { count += byte & 1;
byte >>= 1; }. -/
def count_bits (b : Nat) : Nat :=
  count_bits_go b b

/-- The distance accumulation loop of hash_hamming_distance over len
bytes: XOR then popcount. -/
def hammingNat (a b : List Nat) (len : Nat) : Nat :=
  (List.range len).foldl
    (fun d i => d + count_bits ((a.getD i 0) ^^^ (b.getD i 0))) 0

/-- hash_hamming_distance from detective_core.c: -1 when either digest is
NULL, otherwise the bit count of the XOR over len bytes. -/
def hash_hamming_distance (h1 h2 : Option (List Nat)) (len : Nat) : Int :=
  match h1, h2 with
  | some a, some b => (hammingNat a b len : Int)
  | _, _ => -1

/-- hash_compare from detective_core.c: 1 (mismatch) when either argument
is NULL, else strcmp equality of the two digest strings (0 = equal). -/
def hash_compare (h1 h2 : Option (List Nat)) : Nat :=
  match h1, h2 with
  | some a, some b => if a = b then 0 else 1
  | _, _ => 1

/-- batch_compare_hash from detective_core.c (for a non-NULL target and
candidate array): None models the NULL + match_count = 0 return (empty
collection, or no candidate matched); otherwise the ascending list of
indices whose non-NULL candidate compares equal to the target. -/
def batch_compare_hash (target : Option (List Nat))
    (db : List (Option (List Nat))) : Option (List Nat) :=
  match target with
  | none => none
  | some t =>
    if db.length = 0 then none
    else
      let hits := db.enum.filterMap fun p =>
        if p.2 ≠ none ∧ hash_compare (some t) p.2 = 0 then some p.1 else none
      if hits = [] then none else some hits

/-- The collection loop of batch_similarity_search: for each non-NULL
candidate, with non-negative distance, whose similarity
1 - distance / (hash_len * 8) is at least the threshold, an
(index, similarity) pair, in scan order. Similarity is modelled in Rat;
every value the C double arithmetic produces here is an exact multiple of
1 / (8 * hash_len), well within double precision for any real digest
length, so Rat comparison agrees with the C comparison. -/
def batch_collect (t : List Nat) (hash_len : Nat)
    (db : List (Option (List Nat))) (threshold : Rat) : List (Nat × Rat) :=
  db.enum.filterMap fun p =>
    match p.2 with
    | none => none
    | some c =>
      let distance : Int := hash_hamming_distance (some t) (some c) hash_len
      if distance < 0 then none
      else
        let similarity : Rat := 1 - (distance : Rat) / ((hash_len * 8 : Nat) : Rat)
        if threshold ≤ similarity then some (p.1, similarity) else none

/-- The inner scan of the selection sort: max_idx starts at the current
position, and j strictly beyond it replaces it only on strictly greater
similarity (so the first maximum wins). Here the current position is 0
and j runs from 1. -/
def selectMaxIdxAux (l : List (Nat × Rat)) : Nat → Nat → Nat → Nat
  | 0, _, m => m
  | fuel + 1, j, m =>
    if j < l.length then
      selectMaxIdxAux l fuel (j + 1)
        (if (l.getD j (0, 0)).2 > (l.getD m (0, 0)).2 then j else m)
    else m

/-- Index of the first maximal-similarity entry, per the C inner loop
(fuel = list length bounds the remaining iterations of j). -/
def selectMaxIdx (l : List (Nat × Rat)) : Nat :=
  selectMaxIdxAux l l.length 1 0

/-- The in-place selection sort of batch_similarity_search, functionally:
pick the first maximal entry of the remaining suffix, swap it to the
front (only when its index differs, as the C code does), fix it and
recurse on the rest. Descending by similarity; NOT stable across the
swap. -/
def selSort_go : Nat → List (Nat × Rat) → List (Nat × Rat)
  | _, [] => []
  | 0, _ :: _ => []
  | fuel + 1, x :: xs =>
    let l := x :: xs
    let m := selectMaxIdx l
    let l' := if m = 0 then l else (l.set 0 (l.getD m (0, 0))).set m x
    l'.headD (0, 0) :: selSort_go fuel l'.tail

/-- The selection sort entered with fuel = list length; each round fixes
one element, so the fuel-exhausted [] case is unreachable. -/
def selSort (l : List (Nat × Rat)) : List (Nat × Rat) :=
  selSort_go l.length l

/-- batch_similarity_search from detective_core.c (non-NULL target and
array): None models the NULL + result_count = 0 return (guard failure or
nothing at or above the threshold); otherwise the collected pairs sorted
by similarity descending with the selection sort. -/
def batch_similarity_search (target : Option (List Nat)) (hash_len : Nat)
    (db : List (Option (List Nat))) (threshold : Rat) :
    Option (List (Nat × Rat)) :=
  match target with
  | none => none
  | some t =>
    if db.length = 0 ∨ hash_len = 0 then none
    else
      let collected := batch_collect t hash_len db threshold
      if collected = [] then none else some (selSort collected)

/-- Proof infrastructure: feeding one byte to the chunk state. This is
exactly a chunk_state_update iteration whose take is 1: compress a full
buffer first, then append the byte. The streaming-invariance and
zero-digest proofs relate the C bulk loops to folds of this step. -/
def cstep (b : Nat) (c : blake3_chunk_state) : blake3_chunk_state :=
  let c1 := chunk_try_compress c
  { c1 with buf := c1.buf.set c1.buf_len b, buf_len := c1.buf_len + 1 }

/-- Proof infrastructure: feeding one byte to the hasher. This is a
blake3_hasher_update iteration restricted to one byte: finish the chunk
when it is full (16 blocks worth held), then let the byte go to the
(possibly fresh) chunk state. -/
def hstep (b : Nat) (s : blake3_hasher) : Except CErr blake3_hasher :=
  if s.chunk.buf_len = 64 ∧ s.chunk.blocks_compressed = 15 then
    (add_chunk_cv s (words_of_block (chunk_state_output s.chunk) 8)
        (s.chunk.chunk_counter + 1)).map
      fun s' =>
        let c := chunk_state_init s'.key s'.chunk.flags
        { s' with chunk := cstep b { c with chunk_counter := c.chunk_counter + 1 } }
  else .ok { s with chunk := cstep b s.chunk }

/-- hstep lifted to fallible states, as a foldl step. -/
def hstepE (e : Except CErr blake3_hasher) (b : Nat) : Except CErr blake3_hasher :=
  e.bind fun s => hstep b s

/-- The bytes the active chunk has consumed: full blocks plus buffer. -/
def consumedC (c : blake3_chunk_state) : Nat :=
  c.blocks_compressed * 64 + c.buf_len

/-- The first four bytes of the published BLAKE3 digest of the empty
input: af1349b9 f5f9a1a6 a0404dee 35752a4c ... (reference test vectors of
the BLAKE3 specification). -/
def blake3_ref_empty_lead : List Nat := [0xaf, 0x13, 0x49, 0xb9]

/-- The published BLAKE2b-512 digest of the empty input (RFC 7693
algorithm): 786a02f742015903c6c6fd852552d272912f4740e15847618a86e217
f71f5419d25e1031afee585313896444934eb04b903a685b1448b755d56f701afe9be2ce. -/
def blake2b_ref_empty : List Nat :=
  [0x78, 0x6a, 0x02, 0xf7, 0x42, 0x01, 0x59, 0x03, 0xc6, 0xc6, 0xfd,
   0x85, 0x25, 0x52, 0xd2, 0x72, 0x91, 0x2f, 0x47, 0x40, 0xe1, 0x58,
   0x47, 0x61, 0x8a, 0x86, 0xe2, 0x17, 0xf7, 0x1f, 0x54, 0x19, 0xd2,
   0x5e, 0x10, 0x31, 0xaf, 0xee, 0x58, 0x53, 0x13, 0x89, 0x64, 0x44,
   0x93, 0x4e, 0xb0, 0x4b, 0x90, 0x3a, 0x68, 0x5b, 0x14, 0x48, 0xb7,
   0x55, 0xd5, 0x6f, 0x70, 0x1a, 0xfe, 0x9b, 0xe2, 0xce]

/-- The 64 bytes blake2b_final actually serialises for the empty input:
the little-endian dump of the raw blake2b_IV words. -/
def blake2b_iv_bytes : List Nat :=
  blake2b_IV.foldr (fun w acc => le64 w ++ acc) []

/-- For i < 8 the XOF output word i is state[i] XOR state[i % 8] =
state[i] XOR state[i], i.e. zero, whatever the state holds. -/
theorem xof_word_small (st : List Nat) (i : Nat) (h : i < 8) :
    xof_word st i = 0 := by
  simp [xof_word, Nat.mod_eq_of_lt h]

/-- The first 32 bytes of every blake3_compress_xof output are zero. -/
theorem blake3_compress_xof_take32 (cv block : List Nat) (bl ctr fl : Nat) :
    (blake3_compress_xof cv block bl ctr fl).take 32 = List.replicate 32 0 := by
  simp only [blake3_compress_xof]
  rw [xof_word_small _ 0 (by norm_num), xof_word_small _ 1 (by norm_num),
    xof_word_small _ 2 (by norm_num), xof_word_small _ 3 (by norm_num),
    xof_word_small _ 4 (by norm_num), xof_word_small _ 5 (by norm_num),
    xof_word_small _ 6 (by norm_num), xof_word_small _ 7 (by norm_num)]
  rfl

/-- Every blake3_compress_xof output is exactly 64 bytes. -/
theorem blake3_compress_xof_length (cv block : List Nat) (bl ctr fl : Nat) :
    (blake3_compress_xof cv block bl ctr fl).length = 64 := by
  simp [blake3_compress_xof, le32]

/-- C1: the embedded hash engines do not reproduce the published
reference digests on the empty input. The tree hash (blake3) returns 32
zero bytes - its XOF output loop computes state[i] ^ state[i % 8], which
vanishes on the digest words - while the published BLAKE3 digest of ""
begins af1349b9...; the sequential hash (blake2b with 64-byte output)
returns the raw little-endian IV words - init omits the parameter-block
XOR and finalize skips the last compression when the buffer is empty -
while the published BLAKE2b-512 digest of "" is 786a02f7... . -/
theorem blake_engines_miss_published_vectors :
    ((blake3 [] 32 (List.replicate 32 0)).map (fun d => d.take 4) = .ok [0, 0, 0, 0]
      ∧ ([0, 0, 0, 0] : List Nat) ≠ blake3_ref_empty_lead)
    ∧ (((blake2b_init 64).bind fun S => blake2b_final S 64) = some blake2b_iv_bytes
      ∧ blake2b_iv_bytes ≠ blake2b_ref_empty) := by decide

set_option maxRecDepth 100000 in
/-- C3: the carry-merge loop pops from an empty chaining-value stack as
soon as the first chunk completes. Feeding 1025 zero bytes completes one
chunk; add_chunk_cv is entered with total_chunks = 1 and an empty stack,
and because the loop runs while the low bit is SET (the binary-carry
scheme requires: while it is clear), it immediately pops, underflowing
cv_stack_len. -/
theorem tree_update_pops_empty_cv_stack :
    blake3_hasher_update blake3_hasher_init (List.replicate 1025 0)
      = .error .stackUnderflow := by decide

/-- C5: blake2b_final runs the final compression only when the buffer is
non-empty. For the empty input (nothing buffered after init(64)) it
performs no compression at all and returns the serialised raw IV, unlike
the specified behaviour (modelled by blake2b_final_specModel) in which
the zero-padded block is always compressed with f[0] = all-ones. -/
theorem blake2b_final_skips_last_compression_on_empty :
    ((blake2b_init 64).bind fun S => blake2b_final S 64) = some blake2b_iv_bytes
    ∧ ((blake2b_init 64).bind fun S => blake2b_final_specModel S 64) ≠
      some blake2b_iv_bytes := by decide

/-- C6 counterexample: equal-similarity entries do NOT keep their scan
order. Target byte 0x00 against candidates [0x00, 0x07, 0x0e, 0x01] with
threshold 0 collects (0,1), (1,5/8), (2,5/8), (3,7/8); the selection
sort swaps positions 1 and 3, leaving the tied entries as (2,5/8) before
(1,5/8) - the reverse of their candidate order. -/
theorem similarity_tie_order_counterexample :
    batch_similarity_search (some [0]) 1 [some [0], some [7], some [14], some [1]] 0
      = some [(0, 1), (3, 7/8), (2, 5/8), (1, 5/8)] := by
  with_unfolding_all decide

/-- C8 counterexample: an empty target digest text is not rejected - the
scan still runs, and an empty candidate string matches it, so
exactMatch("", [""]) returns index 0 rather than the "no matches"
signal. -/
theorem exact_match_empty_target_matches :
    batch_compare_hash (some []) [some []] = some [0] := by decide

/-- Length of the XOF expansion loop output: 64·⌊(out_len-1)/64⌋ bytes
(one full 64-byte block per iteration), given sufficient fuel. -/
theorem blake3_xof_loop_go_length (cvw block : List Nat) (fl : Nat) :
    ∀ fuel out ctr, out ≤ fuel →
      (blake3_xof_loop_go cvw block fl fuel out ctr).length =
        64 * ((out - 1) / 64) := by
  intro fuel
  induction fuel with
  | zero =>
    intro out ctr h
    have : out = 0 := by omega
    subst this
    simp [blake3_xof_loop_go]
  | succ f ih =>
    intro out ctr h
    simp only [blake3_xof_loop_go]
    by_cases hlt : 64 < out
    · rw [if_pos hlt, List.length_append, blake3_compress_xof_length,
        ih (out - 64) (ctr + 1) (by omega)]
      have hsplit : out - 1 = (out - 64 - 1) + 64 := by omega
      rw [hsplit, Nat.add_div_right _ (by norm_num)]
      ring
    · rw [if_neg hlt]
      have : out - 1 < 64 := by omega
      simp [Nat.div_eq_of_lt this]

/-- C4: finalize does not produce exactly the requested number of bytes.
For a 1000-byte request it writes 1024 bytes (64·⌈1000/64⌉): the first
memcpy never decrements out_len, and each loop pass copies a full
64-byte block, so the final partial block overruns the caller's buffer
by 24 bytes. (For L ≤ 64 the output is exact; the first failing length
is 65, which receives 128 bytes.) -/
theorem tree_finalize_output_length_overrun (junk : List Nat) :
    (blake3_hasher_finalize blake3_hasher_init 1000 junk).length = 1024 := by
  simp only [blake3_hasher_finalize, blake3_xof_loop]
  rw [List.length_append, List.length_take, blake3_compress_xof_length,
    blake3_xof_loop_go_length _ _ _ 1000 1000 1 (le_refl _)]
  norm_num

/-- chunk_try_compress is the identity when the buffer is not full. -/
theorem chunk_try_compress_of_ne (c : blake3_chunk_state) (h : c.buf_len ≠ 64) :
    chunk_try_compress c = c := by
  simp [chunk_try_compress, h]

/-- Effect of chunk_try_compress on the tracked quantities: the buffer
never stays full, the block counter stays within a chunk (given the
chunk is not yet complete), and the consumed-bytes count is unchanged
(a compression turns 64 buffered bytes into one counted block). -/
theorem chunk_try_compress_spec (c : blake3_chunk_state) (h64 : c.buf_len ≤ 64)
    (h15 : c.blocks_compressed ≤ 15) (hlt : consumedC c < 1024) :
    (chunk_try_compress c).buf_len ≤ 63 ∧
    (chunk_try_compress c).blocks_compressed ≤ 15 ∧
    consumedC (chunk_try_compress c) = consumedC c := by
  by_cases hb : c.buf_len = 64
  · have hbc : c.blocks_compressed ≤ 14 := by
      simp only [consumedC, hb] at hlt
      omega
    have hmod : (c.blocks_compressed + 1) % 256 = c.blocks_compressed + 1 :=
      Nat.mod_eq_of_lt (by omega)
    simp [chunk_try_compress, hb, hmod, consumedC]
    omega
  · rw [chunk_try_compress_of_ne c hb]
    exact ⟨by omega, h15, rfl⟩

/-- Effect of one byte step on the tracked quantities. -/
theorem cstep_spec (b : Nat) (c : blake3_chunk_state) (h64 : c.buf_len ≤ 64)
    (h15 : c.blocks_compressed ≤ 15) (hlt : consumedC c < 1024) :
    (cstep b c).buf_len ≤ 64 ∧ (cstep b c).blocks_compressed ≤ 15 ∧
    consumedC (cstep b c) = consumedC c + 1 := by
  obtain ⟨h1, h2, h3⟩ := chunk_try_compress_spec c h64 h15 hlt
  simp only [cstep, consumedC] at *
  refine ⟨by omega, h2, by omega⟩

/-- Effect of folding byte steps over a whole list. -/
theorem foldl_cstep_spec (l : List Nat) : ∀ c : blake3_chunk_state,
    c.buf_len ≤ 64 → c.blocks_compressed ≤ 15 → consumedC c + l.length ≤ 1024 →
    (l.foldl (fun acc b => cstep b acc) c).buf_len ≤ 64 ∧
    (l.foldl (fun acc b => cstep b acc) c).blocks_compressed ≤ 15 ∧
    consumedC (l.foldl (fun acc b => cstep b acc) c) = consumedC c + l.length := by
  induction l with
  | nil => intro c h64 h15 hcon; simpa using ⟨h64, h15⟩
  | cons x xs ih =>
    intro c h64 h15 hcon
    simp only [List.length_cons] at hcon
    obtain ⟨h1, h2, h3⟩ := cstep_spec x c h64 h15 (by omega)
    obtain ⟨g1, g2, g3⟩ := ih (cstep x c) h1 h2 (by omega)
    simp only [List.foldl_cons, List.length_cons]
    exact ⟨g1, g2, by omega⟩

/-- Filling bytes that fit in the buffer is a fold of byte steps: while
room remains, each step is a plain append. -/
theorem foldl_cstep_fill (bytes : List Nat) : ∀ c : blake3_chunk_state,
    c.buf_len + bytes.length ≤ 64 →
    bytes.foldl (fun acc b => cstep b acc) c =
      { c with buf := writeBytes c.buf c.buf_len bytes,
               buf_len := c.buf_len + bytes.length } := by
  induction bytes with
  | nil => intro c h; simp [writeBytes]
  | cons x xs ih =>
    intro c h
    simp only [List.length_cons] at h
    have hne : c.buf_len ≠ 64 := by omega
    have hstep : cstep x c =
        { c with buf := c.buf.set c.buf_len x, buf_len := c.buf_len + 1 } := by
      simp only [cstep, chunk_try_compress_of_ne c hne]
    simp only [List.foldl_cons, hstep]
    rw [ih _ (by simp; omega)]
    simp only [writeBytes, List.length_cons]
    congr 1
    omega

/-- One chunk_state_update iteration's byte group, as a fold of byte
steps: the possible compression happens on the first byte, the rest are
appends. Stated with the byte count n abstracted so that it matches the
take expression of the loop body verbatim. -/
theorem foldl_cstep_take (c : blake3_chunk_state) (bytes : List Nat) (n : Nat)
    (hne : bytes ≠ []) (hlen : bytes.length = n)
    (hle : (chunk_try_compress c).buf_len + n ≤ 64) :
    bytes.foldl (fun acc b => cstep b acc) c =
      { chunk_try_compress c with
        buf := writeBytes (chunk_try_compress c).buf
          (chunk_try_compress c).buf_len bytes,
        buf_len := (chunk_try_compress c).buf_len + n } := by
  subst hlen
  cases bytes with
  | nil => exact absurd rfl hne
  | cons y ys =>
    simp only [List.foldl_cons]
    have h1 : cstep y c = { chunk_try_compress c with
        buf := (chunk_try_compress c).buf.set (chunk_try_compress c).buf_len y,
        buf_len := (chunk_try_compress c).buf_len + 1 } := rfl
    rw [h1, foldl_cstep_fill ys _ (by simp at hle ⊢; omega)]
    simp only [writeBytes, List.length_cons]
    congr 1
    omega

/-- The chunk_state_update loop is the fold of byte steps over its input,
for any chunk state that satisfies the structural bounds and has room for
the input in the current chunk. -/
theorem chunk_state_update_go_eq_foldl : ∀ fuel (l : List Nat)
    (c : blake3_chunk_state), l.length ≤ fuel → c.buf_len ≤ 64 →
    c.blocks_compressed ≤ 15 → consumedC c + l.length ≤ 1024 →
    chunk_state_update_go fuel c l =
      .ok (l.foldl (fun acc b => cstep b acc) c) := by
  intro fuel
  induction fuel with
  | zero =>
    intro l c hl _ _ _
    have : l = [] := List.eq_nil_of_length_eq_zero (by omega)
    subst this
    simp [chunk_state_update_go]
  | succ f ih =>
    intro l c hl h64 h15 hcon
    cases l with
    | nil => simp [chunk_state_update_go]
    | cons x xs =>
      obtain ⟨hbl, hbc, hcons⟩ := chunk_try_compress_spec c h64 h15
        (by simp only [List.length_cons] at hcon; omega)
      have hgo : chunk_state_update_go (f + 1) c (x :: xs) =
          (if min (x :: xs).length (64 - (chunk_try_compress c).buf_len) = 0
           then .error .stuck
           else chunk_state_update_go f
             { chunk_try_compress c with
               buf := writeBytes (chunk_try_compress c).buf
                 (chunk_try_compress c).buf_len
                 ((x :: xs).take
                   (min (x :: xs).length (64 - (chunk_try_compress c).buf_len))),
               buf_len := (chunk_try_compress c).buf_len +
                 min (x :: xs).length (64 - (chunk_try_compress c).buf_len) }
             ((x :: xs).drop
               (min (x :: xs).length (64 - (chunk_try_compress c).buf_len)))) := rfl
      have htkpos : min (x :: xs).length (64 - (chunk_try_compress c).buf_len) ≠ 0 := by
        simp only [List.length_cons]
        omega
      have htklen : ((x :: xs).take
          (min (x :: xs).length (64 - (chunk_try_compress c).buf_len))).length =
          min (x :: xs).length (64 - (chunk_try_compress c).buf_len) := by
        simp only [List.length_take]
        omega
      have hne : (x :: xs).take
          (min (x :: xs).length (64 - (chunk_try_compress c).buf_len)) ≠ [] := by
        apply List.ne_nil_of_length_pos
        rw [htklen]
        omega
      have hkey := foldl_cstep_take c
        ((x :: xs).take (min (x :: xs).length (64 - (chunk_try_compress c).buf_len)))
        (min (x :: xs).length (64 - (chunk_try_compress c).buf_len))
        hne htklen (by omega)
      rw [hgo, if_neg htkpos, ← hkey]
      have hinv := foldl_cstep_spec
        ((x :: xs).take (min (x :: xs).length (64 - (chunk_try_compress c).buf_len)))
        c h64 h15
        (by rw [htklen]; simp only [List.length_cons] at hcon ⊢; omega)
      rw [ih _ _ (by simp only [List.length_drop, List.length_cons] at *; omega)
        hinv.1 hinv.2.1
        (by
          rw [hinv.2.2, htklen]
          simp only [List.length_drop, List.length_cons] at *
          omega)]
      conv_rhs => rw [← List.take_append_drop
        (min (x :: xs).length (64 - (chunk_try_compress c).buf_len)) (x :: xs)]
      rw [List.foldl_append]

/-- An error state absorbs all further byte steps. -/
theorem foldl_hstepE_error (l : List Nat) (e : CErr) :
    l.foldl hstepE (.error e) = .error e := by
  induction l with
  | nil => rfl
  | cons x xs ih => simpa [hstepE, Except.bind] using ih

/-- When the active chunk is not yet complete, a hasher byte step is just
a chunk byte step. -/
theorem hstep_not_full (b : Nat) (s : blake3_hasher)
    (h : ¬(s.chunk.buf_len = 64 ∧ s.chunk.blocks_compressed = 15)) :
    hstep b s = .ok { s with chunk := cstep b s.chunk } := by
  simp [hstep, h]

/-- Under the structural bounds, the chunk is complete exactly when it
has consumed the full 1024 bytes. -/
theorem chunk_full_iff (c : blake3_chunk_state) (h64 : c.buf_len ≤ 64)
    (h15 : c.blocks_compressed ≤ 15) :
    consumedC c < 1024 ↔ ¬(c.buf_len = 64 ∧ c.blocks_compressed = 15) := by
  simp only [consumedC]
  constructor
  · intro h hfull
    omega
  · intro h
    rcases Nat.lt_or_ge c.blocks_compressed 15 with h1 | h1
    · omega
    · have : c.blocks_compressed = 15 := by omega
      have : c.buf_len ≠ 64 := fun hb => h ⟨hb, this⟩
      omega

/-- Folding byte steps through an incomplete chunk never finishes it, so
the hasher fold is the chunk fold lifted into the hasher. -/
theorem foldl_hstepE_fill (bytes : List Nat) : ∀ s : blake3_hasher,
    s.chunk.buf_len ≤ 64 → s.chunk.blocks_compressed ≤ 15 →
    consumedC s.chunk + bytes.length ≤ 1024 →
    (bytes = [] ∨ consumedC s.chunk < 1024) →
    bytes.foldl hstepE (.ok s) =
      .ok { s with chunk := bytes.foldl (fun acc b => cstep b acc) s.chunk } := by
  induction bytes with
  | nil => intro s _ _ _ _; rfl
  | cons x xs ih =>
    intro s h64 h15 hcon hlt
    rcases hlt with h | hlt
    · exact absurd h (by simp)
    have hnotfull : ¬(s.chunk.buf_len = 64 ∧ s.chunk.blocks_compressed = 15) :=
      (chunk_full_iff s.chunk h64 h15).mp hlt
    simp only [List.foldl_cons]
    have hs : hstepE (.ok s) x = .ok { s with chunk := cstep x s.chunk } := by
      simp only [hstepE, Except.bind]
      exact hstep_not_full x s hnotfull
    rw [hs]
    obtain ⟨g1, g2, g3⟩ := cstep_spec x s.chunk h64 h15 hlt
    simp only [List.length_cons] at hcon
    rw [ih _ g1 g2
      (by show consumedC (cstep x s.chunk) + xs.length ≤ 1024; omega)
      (by
        cases xs with
        | nil => exact Or.inl rfl
        | cons y ys =>
          right
          show consumedC (cstep x s.chunk) < 1024
          simp only [List.length_cons] at hcon
          omega)]

/-- The tail of a blake3_hasher_update iteration (after the chunk-finish
step produced state s1): feeding take = min(len, room) bytes through
chunk_state_update and recursing equals folding the byte steps, provided
the active chunk of s1 has room. -/
theorem hasher_go_branch (f : Nat)
    (ihf : ∀ (l : List Nat) (s : blake3_hasher), l.length ≤ f →
      s.chunk.buf_len ≤ 64 → s.chunk.blocks_compressed ≤ 15 →
      blake3_hasher_update_go f s l = l.foldl hstepE (.ok s))
    (l : List Nat) (s1 : blake3_hasher) (hne : l ≠ [])
    (hl : l.length ≤ f + 1)
    (h64 : s1.chunk.buf_len ≤ 64) (h15 : s1.chunk.blocks_compressed ≤ 15)
    (hlt : consumedC s1.chunk < 1024) :
    (if min l.length
        (1024 - (s1.chunk.blocks_compressed * 64 + s1.chunk.buf_len)) = 0
     then (.error .stuck : Except CErr blake3_hasher)
     else
       match chunk_state_update s1.chunk
         (l.take (min l.length
           (1024 - (s1.chunk.blocks_compressed * 64 + s1.chunk.buf_len)))) with
       | .error e => .error e
       | .ok c2 => blake3_hasher_update_go f { s1 with chunk := c2 }
           (l.drop (min l.length
             (1024 - (s1.chunk.blocks_compressed * 64 + s1.chunk.buf_len))))) =
    l.foldl hstepE (.ok s1) := by
  have hwant : 1 ≤ 1024 - (s1.chunk.blocks_compressed * 64 + s1.chunk.buf_len) := by
    simp only [consumedC] at hlt
    omega
  have hlen1 : 1 ≤ l.length := List.length_pos.mpr hne
  have htk : min l.length
      (1024 - (s1.chunk.blocks_compressed * 64 + s1.chunk.buf_len)) ≠ 0 := by
    omega
  rw [if_neg htk]
  have htklen : (l.take (min l.length
      (1024 - (s1.chunk.blocks_compressed * 64 + s1.chunk.buf_len)))).length =
      min l.length (1024 - (s1.chunk.blocks_compressed * 64 + s1.chunk.buf_len)) := by
    simp only [List.length_take]
    omega
  have hcon : consumedC s1.chunk + (l.take (min l.length
      (1024 - (s1.chunk.blocks_compressed * 64 + s1.chunk.buf_len)))).length ≤ 1024 := by
    rw [htklen]
    simp only [consumedC] at *
    omega
  have hcss := chunk_state_update_go_eq_foldl
    (l.take (min l.length
      (1024 - (s1.chunk.blocks_compressed * 64 + s1.chunk.buf_len)))).length
    (l.take (min l.length
      (1024 - (s1.chunk.blocks_compressed * 64 + s1.chunk.buf_len))))
    s1.chunk (le_refl _) h64 h15 hcon
  rw [show chunk_state_update s1.chunk
      (l.take (min l.length
        (1024 - (s1.chunk.blocks_compressed * 64 + s1.chunk.buf_len)))) =
      chunk_state_update_go
        (l.take (min l.length
          (1024 - (s1.chunk.blocks_compressed * 64 + s1.chunk.buf_len)))).length
        s1.chunk
        (l.take (min l.length
          (1024 - (s1.chunk.blocks_compressed * 64 + s1.chunk.buf_len))))
      from rfl, hcss]
  show blake3_hasher_update_go f
      { s1 with chunk := ((l.take (min l.length
          (1024 - (s1.chunk.blocks_compressed * 64 + s1.chunk.buf_len)))).foldl
        (fun acc b => cstep b acc) s1.chunk) }
      (l.drop (min l.length
        (1024 - (s1.chunk.blocks_compressed * 64 + s1.chunk.buf_len)))) =
    l.foldl hstepE (.ok s1)
  have hinv := foldl_cstep_spec
    (l.take (min l.length
      (1024 - (s1.chunk.blocks_compressed * 64 + s1.chunk.buf_len))))
    s1.chunk h64 h15 hcon
  rw [ihf _ _
    (by simp only [List.length_drop]; omega)
    (by
      show ((l.take (min l.length
        (1024 - (s1.chunk.blocks_compressed * 64 + s1.chunk.buf_len)))).foldl
        (fun acc b => cstep b acc) s1.chunk).buf_len ≤ 64
      exact hinv.1)
    (by
      show ((l.take (min l.length
        (1024 - (s1.chunk.blocks_compressed * 64 + s1.chunk.buf_len)))).foldl
        (fun acc b => cstep b acc) s1.chunk).blocks_compressed ≤ 15
      exact hinv.2.1)]
  conv_rhs => rw [← List.take_append_drop
    (min l.length (1024 - (s1.chunk.blocks_compressed * 64 + s1.chunk.buf_len))) l,
    List.foldl_append]
  rw [foldl_hstepE_fill
    (l.take (min l.length
      (1024 - (s1.chunk.blocks_compressed * 64 + s1.chunk.buf_len))))
    s1 h64 h15 hcon (Or.inr hlt)]

/-- The blake3_hasher_update loop is the fold of single-byte hasher steps
over its input, for any state satisfying the structural chunk bounds. -/
theorem blake3_hasher_update_go_eq_foldl : ∀ fuel (l : List Nat)
    (s : blake3_hasher), l.length ≤ fuel → s.chunk.buf_len ≤ 64 →
    s.chunk.blocks_compressed ≤ 15 →
    blake3_hasher_update_go fuel s l = l.foldl hstepE (.ok s) := by
  intro fuel
  induction fuel with
  | zero =>
    intro l s hl _ _
    have : l = [] := List.eq_nil_of_length_eq_zero (by omega)
    subst this
    rfl
  | succ f ih =>
    intro l s hl h64 h15
    cases l with
    | nil => rfl
    | cons x xs =>
      by_cases hfull : s.chunk.buf_len = 64 ∧ s.chunk.blocks_compressed = 15
      · cases hadd : add_chunk_cv s (words_of_block (chunk_state_output s.chunk) 8)
            (s.chunk.chunk_counter + 1) with
        | error e =>
          have hgo : blake3_hasher_update_go (f + 1) s (x :: xs) = .error e := by
            simp only [blake3_hasher_update_go]
            rw [if_pos hfull, hadd]
            rfl
          rw [hgo]
          have hfirst : hstepE (.ok s) x = .error e := by
            simp only [hstepE, Except.bind, hstep]
            rw [if_pos hfull, hadd]
            rfl
          rw [List.foldl_cons, hfirst, foldl_hstepE_error]
        | ok s' =>
          have hgo : blake3_hasher_update_go (f + 1) s (x :: xs) =
              (if min (x :: xs).length 1024 = 0
               then (.error .stuck : Except CErr blake3_hasher)
               else
                 match chunk_state_update
                   { cv := s'.key, chunk_counter := 1, buf := List.replicate 64 0,
                     buf_len := 0, blocks_compressed := 0, flags := s'.chunk.flags }
                   ((x :: xs).take (min (x :: xs).length 1024)) with
                 | .error e => .error e
                 | .ok c2 => blake3_hasher_update_go f
                     { key := s'.key, chunk := c2, cv_stack := s'.cv_stack }
                     ((x :: xs).drop (min (x :: xs).length 1024))) := by
            simp only [blake3_hasher_update_go]
            rw [if_pos hfull, hadd]
            rfl
          rw [hgo]
          have hbranch := hasher_go_branch f ih (x :: xs)
            { key := s'.key,
              chunk := { cv := s'.key, chunk_counter := 1,
                         buf := List.replicate 64 0, buf_len := 0,
                         blocks_compressed := 0, flags := s'.chunk.flags },
              cv_stack := s'.cv_stack }
            (by simp) hl (by simp) (by simp) (by simp [consumedC])
          refine Eq.trans hbranch ?_
          rw [List.foldl_cons, List.foldl_cons]
          have hfirst : hstepE
              (.ok ({ key := s'.key,
                      chunk := { cv := s'.key, chunk_counter := 1,
                                 buf := List.replicate 64 0, buf_len := 0,
                                 blocks_compressed := 0,
                                 flags := s'.chunk.flags },
                      cv_stack := s'.cv_stack } : blake3_hasher)) x =
              hstepE (.ok s) x := by
            simp only [hstepE, Except.bind]
            rw [hstep_not_full x _ (by simp)]
            show _ = hstep x s
            simp only [hstep]
            rw [if_pos hfull, hadd]
            rfl
          rw [hfirst]
      · have hgo : blake3_hasher_update_go (f + 1) s (x :: xs) =
            (if min (x :: xs).length
                (1024 - (s.chunk.blocks_compressed * 64 + s.chunk.buf_len)) = 0
             then (.error .stuck : Except CErr blake3_hasher)
             else
               match chunk_state_update s.chunk
                 ((x :: xs).take (min (x :: xs).length
                   (1024 - (s.chunk.blocks_compressed * 64 + s.chunk.buf_len)))) with
               | .error e => .error e
               | .ok c2 => blake3_hasher_update_go f { s with chunk := c2 }
                   ((x :: xs).drop (min (x :: xs).length
                     (1024 - (s.chunk.blocks_compressed * 64 + s.chunk.buf_len))))) := by
          simp only [blake3_hasher_update_go]
          rw [if_neg hfull]
        rw [hgo]
        exact hasher_go_branch f ih (x :: xs) s (by simp) hl h64 h15
          ((chunk_full_iff s.chunk h64 h15).mpr hfull)

/-- blake3_hasher_update as a fold of byte steps. -/
theorem blake3_hasher_update_eq_foldl (s : blake3_hasher) (l : List Nat)
    (h64 : s.chunk.buf_len ≤ 64) (h15 : s.chunk.blocks_compressed ≤ 15) :
    blake3_hasher_update s l = l.foldl hstepE (.ok s) :=
  blake3_hasher_update_go_eq_foldl l.length l s (le_refl _) h64 h15

/-- A successful hasher byte step preserves the structural chunk bounds. -/
theorem hstep_inv (b : Nat) (s t : blake3_hasher)
    (h64 : s.chunk.buf_len ≤ 64) (h15 : s.chunk.blocks_compressed ≤ 15)
    (h : hstep b s = .ok t) :
    t.chunk.buf_len ≤ 64 ∧ t.chunk.blocks_compressed ≤ 15 := by
  by_cases hfull : s.chunk.buf_len = 64 ∧ s.chunk.blocks_compressed = 15
  · simp only [hstep, if_pos hfull] at h
    cases hadd : add_chunk_cv s (words_of_block (chunk_state_output s.chunk) 8)
        (s.chunk.chunk_counter + 1) with
    | error e => rw [hadd] at h; exact absurd h (by simp [Except.map])
    | ok s' =>
      rw [hadd] at h
      simp only [Except.map] at h
      obtain ⟨g1, g2, g3⟩ := cstep_spec b
        { cv := s'.key, chunk_counter := 1, buf := List.replicate 64 0,
          buf_len := 0, blocks_compressed := 0, flags := s'.chunk.flags }
        (by simp) (by simp) (by simp [consumedC])
      rw [← Except.ok.inj h]
      exact ⟨g1, g2⟩
  · rw [hstep_not_full b s hfull] at h
    obtain ⟨g1, g2, g3⟩ := cstep_spec b s.chunk h64 h15
      ((chunk_full_iff s.chunk h64 h15).mpr hfull)
    rw [← Except.ok.inj h]
    exact ⟨g1, g2⟩

/-- Folding byte steps preserves the structural chunk bounds. -/
theorem foldl_hstepE_ok_inv (l : List Nat) : ∀ s t : blake3_hasher,
    s.chunk.buf_len ≤ 64 → s.chunk.blocks_compressed ≤ 15 →
    l.foldl hstepE (.ok s) = .ok t →
    t.chunk.buf_len ≤ 64 ∧ t.chunk.blocks_compressed ≤ 15 := by
  induction l with
  | nil =>
    intro s t h64 h15 h
    rw [← Except.ok.inj h]
    exact ⟨h64, h15⟩
  | cons x xs ih =>
    intro s t h64 h15 h
    simp only [List.foldl_cons] at h
    cases hx : hstep x s with
    | error e =>
      rw [show hstepE (.ok s) x = .error e from hx ▸ rfl, foldl_hstepE_error] at h
      exact absurd h (by simp)
    | ok u =>
      rw [show hstepE (.ok s) x = .ok u from hx ▸ rfl] at h
      obtain ⟨g1, g2⟩ := hstep_inv x s u h64 h15 hx
      exact ih u t g1 g2 h

/-- A successful blake3_hasher_update preserves the chunk bounds. -/
theorem blake3_hasher_update_inv (s t : blake3_hasher) (l : List Nat)
    (h64 : s.chunk.buf_len ≤ 64) (h15 : s.chunk.blocks_compressed ≤ 15)
    (h : blake3_hasher_update s l = .ok t) :
    t.chunk.buf_len ≤ 64 ∧ t.chunk.blocks_compressed ≤ 15 := by
  rw [blake3_hasher_update_eq_foldl s l h64 h15] at h
  exact foldl_hstepE_ok_inv l s t h64 h15 h

/-- An errored state absorbs all further update calls. -/
theorem foldl_updE_error (ps : List (List Nat)) (e : CErr) :
    ps.foldl (fun (acc : Except CErr blake3_hasher) p =>
      acc.bind fun h => blake3_hasher_update h p) (.error e)
      = .error e := by
  induction ps with
  | nil => rfl
  | cons p pp ih => simpa [Except.bind] using ih

/-- Splitting the input across successive update calls reaches the same
state (or the same error) as one update call on the concatenation. -/
theorem foldl_update_pieces (pieces : List (List Nat)) : ∀ s : blake3_hasher,
    s.chunk.buf_len ≤ 64 → s.chunk.blocks_compressed ≤ 15 →
    pieces.foldl (fun (acc : Except CErr blake3_hasher) p =>
      acc.bind fun h => blake3_hasher_update h p) (.ok s)
      = blake3_hasher_update s pieces.flatten := by
  induction pieces with
  | nil => intro s _ _; rfl
  | cons p ps ih =>
    intro s h64 h15
    simp only [List.foldl_cons, List.flatten_cons]
    have h1 : (Except.ok s).bind (fun h => blake3_hasher_update h p)
        = blake3_hasher_update s p := rfl
    rw [h1]
    cases hu : blake3_hasher_update s p with
    | error e =>
      rw [blake3_hasher_update_eq_foldl s _ h64 h15, List.foldl_append,
        ← blake3_hasher_update_eq_foldl s p h64 h15, hu, foldl_hstepE_error]
      exact foldl_updE_error ps e
    | ok s1 =>
      obtain ⟨g1, g2⟩ := blake3_hasher_update_inv s s1 p h64 h15 hu
      rw [ih s1 g1 g2,
        blake3_hasher_update_eq_foldl s _ h64 h15, List.foldl_append,
        ← blake3_hasher_update_eq_foldl s p h64 h15, hu,
        ← blake3_hasher_update_eq_foldl s1 _ g1 g2]

/-- C7: streaming invariance of the tree hash. Feeding any list of
consecutive pieces through successive blake3_hasher_update calls and then
finalizing (at any output length, and whatever the 32 out-of-bounds root
block bytes hold) gives exactly the result of one update call on the
concatenated byte sequence - including reaching the same error when the
input is long enough to trip the chaining-value stack underflow. -/
theorem tree_hash_streaming_invariance (pieces : List (List Nat))
    (out_len : Nat) (junk : List Nat) :
    (pieces.foldl (fun (acc : Except CErr blake3_hasher) p =>
        acc.bind fun s => blake3_hasher_update s p) (.ok blake3_hasher_init)).map
      (fun s => blake3_hasher_finalize s out_len junk)
    = (blake3_hasher_update blake3_hasher_init pieces.flatten).map
        (fun s => blake3_hasher_finalize s out_len junk) := by
  rw [foldl_update_pieces pieces blake3_hasher_init (by decide) (by decide)]

/-- The XOF loop is not entered for a 32-byte request. -/
theorem blake3_xof_loop_go_32 (cvw block : List Nat) (fl : Nat) :
    blake3_xof_loop_go cvw block fl 32 32 1 = [] := rfl

/-- Finalize at the standard 32-byte output length always yields 32 zero
bytes, from any hasher state: the serialised words are
state[i] ^ state[i % 8] = 0 for i < 8. -/
theorem blake3_hasher_finalize_32 (s : blake3_hasher) (junk : List Nat) :
    blake3_hasher_finalize s 32 junk = List.replicate 32 0 := by
  simp only [blake3_hasher_finalize, blake3_xof_loop]
  rw [blake3_xof_loop_go_32, List.append_nil,
    show min 32 64 = 32 from rfl, blake3_compress_xof_take32]

/-- Hex encoding of the 32 zero bytes. -/
theorem bytes_to_hex_zeros :
    bytes_to_hex (List.replicate 32 0) = List.replicate 64 '0' := by decide

/-- C2: blake3_hash_string is a constant function on inputs of at most
1024 bytes (one chunk, so the broken stack is never touched): it always
returns the 64-character hex string of 64 '0' characters, because the
first 8 output words of blake3_compress_xof are each a state word XORed
with itself. -/
theorem blake3_hash_string_constant_zeros (s junk : List Nat)
    (h : s.length ≤ 1024) :
    blake3_hash_string s junk = .ok (List.replicate 64 '0') := by
  have hupd : blake3_hasher_update blake3_hasher_init s =
      .ok { blake3_hasher_init with
        chunk := s.foldl (fun acc b => cstep b acc) blake3_hasher_init.chunk } := by
    rw [blake3_hasher_update_eq_foldl _ _ (by decide) (by decide)]
    exact foldl_hstepE_fill s blake3_hasher_init (by decide) (by decide)
      (by
        show consumedC blake3_hasher_init.chunk + s.length ≤ 1024
        have : consumedC blake3_hasher_init.chunk = 0 := by decide
        omega)
      (Or.inr (by decide))
  simp only [blake3_hash_string, blake3, hupd, Except.map]
  rw [blake3_hasher_finalize_32, bytes_to_hex_zeros]

/-- Witness for C2 at the concrete ASCII input "abc". -/
theorem blake3_hash_string_constant_zeros_witness :
    (([97, 98, 99] : List Nat).length ≤ 1024) ∧
    blake3_hash_string [97, 98, 99] (List.replicate 32 0)
      = .ok (List.replicate 64 '0') :=
  ⟨by decide,
   blake3_hash_string_constant_zeros [97, 98, 99] (List.replicate 32 0) (by decide)⟩

/-- getD at an in-range index is the element. -/
theorem getD_of_lt (l : List (Nat × Rat)) (i : Nat) (h : i < l.length) :
    l.getD i (0, 0) = l[i] := by
  rw [List.getD_eq_getElem?_getD, List.getElem?_eq_getElem h]
  rfl

/-- The inner selection scan returns an in-range index whose similarity
dominates every scanned position, given it starts from such an index. -/
theorem selectMaxIdxAux_spec (l : List (Nat × Rat)) : ∀ fuel j m,
    l.length ≤ j + fuel → m < l.length →
    (∀ k, k < j → (l.getD k (0, 0)).2 ≤ (l.getD m (0, 0)).2) →
    selectMaxIdxAux l fuel j m < l.length ∧
    ∀ k, k < l.length →
      (l.getD k (0, 0)).2 ≤ (l.getD (selectMaxIdxAux l fuel j m) (0, 0)).2 := by
  intro fuel
  induction fuel with
  | zero =>
    intro j m hfj hm hdom
    simp only [selectMaxIdxAux]
    exact ⟨hm, fun k hk => hdom k (by omega)⟩
  | succ f ih =>
    intro j m hfj hm hdom
    simp only [selectMaxIdxAux]
    by_cases hj : j < l.length
    · rw [if_pos hj]
      by_cases hgt : (l.getD j (0, 0)).2 > (l.getD m (0, 0)).2
      · rw [if_pos hgt]
        refine ih (j + 1) j (by omega) hj ?_
        intro k hk
        rcases Nat.lt_or_ge k j with hkj | hkj
        · exact le_of_lt (lt_of_le_of_lt (hdom k hkj) hgt)
        · have : k = j := by omega
          subst this
          exact le_refl _
      · rw [if_neg hgt]
        refine ih (j + 1) m (by omega) hm ?_
        intro k hk
        rcases Nat.lt_or_ge k j with hkj | hkj
        · exact hdom k hkj
        · have : k = j := by omega
          subst this
          exact le_of_not_lt hgt
    · rw [if_neg hj]
      exact ⟨hm, fun k hk => hdom k (by omega)⟩

/-- The selected maximum index is in range and dominates every entry. -/
theorem selectMaxIdx_spec (l : List (Nat × Rat)) (hne : l ≠ []) :
    selectMaxIdx l < l.length ∧
    ∀ k, k < l.length →
      (l.getD k (0, 0)).2 ≤ (l.getD (selectMaxIdx l) (0, 0)).2 := by
  apply selectMaxIdxAux_spec l l.length 1 0 (by omega)
    (List.length_pos.mpr hne)
  intro k hk
  have : k = 0 := by omega
  subst this
  exact le_refl _

/-- Every element is dominated by the selected maximum. -/
theorem mem_le_selectMax (l : List (Nat × Rat)) (hne : l ≠ []) (y : Nat × Rat)
    (hy : y ∈ l) : y.2 ≤ (l.getD (selectMaxIdx l) (0, 0)).2 := by
  obtain ⟨i, hi, hieq⟩ := List.mem_iff_getElem.mp hy
  have := (selectMaxIdx_spec l hne).2 i hi
  rw [getD_of_lt l i hi] at this
  rw [← hieq]
  exact this

/-- Pulling the k-th element of a list to the front and writing x in its
place is a permutation of consing x. -/
theorem cons_getD_set_perm : ∀ (xs : List (Nat × Rat)) (k : Nat) (x : Nat × Rat),
    k < xs.length → List.Perm (xs.getD k (0, 0) :: xs.set k x) (x :: xs) := by
  intro xs
  induction xs with
  | nil => intro k x hk; simp at hk
  | cons y ys ih =>
    intro k x hk
    cases k with
    | zero =>
      simp only [List.getD_cons_zero, List.set_cons_zero]
      exact List.Perm.swap x y ys
    | succ k' =>
      simp only [List.getD_cons_succ, List.set_cons_succ]
      have h1 : List.Perm (ys.getD k' (0, 0) :: y :: ys.set k' x)
          (y :: ys.getD k' (0, 0) :: ys.set k' x) := List.Perm.swap _ _ _
      have h2 : List.Perm (y :: ys.getD k' (0, 0) :: ys.set k' x) (y :: x :: ys) :=
        List.Perm.cons y (ih k' x (by simpa using hk))
      have h3 : List.Perm (y :: x :: ys) (x :: y :: ys) := List.Perm.swap _ _ _
      exact (h1.trans h2).trans h3

/-- The selection sort permutes its input. -/
theorem selSort_go_perm : ∀ fuel (l : List (Nat × Rat)), l.length ≤ fuel →
    List.Perm (selSort_go fuel l) l := by
  intro fuel
  induction fuel with
  | zero =>
    intro l hl
    have : l = [] := List.eq_nil_of_length_eq_zero (by omega)
    subst this
    rfl
  | succ f ih =>
    intro l hl
    cases l with
    | nil => rfl
    | cons x xs =>
      simp only [selSort_go]
      by_cases hm : selectMaxIdx (x :: xs) = 0
      · rw [if_pos hm]
        simp only [List.headD_cons, List.tail_cons]
        exact List.Perm.cons x (ih xs (by simpa using hl))
      · rw [if_neg hm]
        obtain ⟨hmlt, _⟩ := selectMaxIdx_spec (x :: xs) (by simp)
        cases hk : selectMaxIdx (x :: xs) with
        | zero => exact absurd hk hm
        | succ k =>
          rw [hk] at hmlt
          have hklt : k < xs.length := by simpa using hmlt
          simp only [hk, List.getD_cons_succ, List.set_cons_zero,
            List.set_cons_succ, List.headD_cons, List.tail_cons]
          refine List.Perm.trans
            (List.Perm.cons (xs.getD k (0, 0)) (ih (xs.set k x) ?_))
            (cons_getD_set_perm xs k x hklt)
          simp only [List.length_set]
          simpa using hl

/-- The selection sort output is sorted: every later entry has
similarity at most the similarity of every earlier entry. -/
theorem selSort_go_sorted : ∀ fuel (l : List (Nat × Rat)), l.length ≤ fuel →
    (selSort_go fuel l).Pairwise (fun a b => b.2 ≤ a.2) := by
  intro fuel
  induction fuel with
  | zero =>
    intro l hl
    have : l = [] := List.eq_nil_of_length_eq_zero (by omega)
    subst this
    exact List.Pairwise.nil
  | succ f ih =>
    intro l hl
    cases l with
    | nil => exact List.Pairwise.nil
    | cons x xs =>
      simp only [selSort_go]
      have hne : (x :: xs : List (Nat × Rat)) ≠ [] := by simp
      by_cases hm : selectMaxIdx (x :: xs) = 0
      · rw [if_pos hm]
        simp only [List.headD_cons, List.tail_cons]
        refine List.Pairwise.cons ?_ (ih xs (by simpa using hl))
        intro y hy
        have hy2 : y ∈ xs := (selSort_go_perm f xs (by simpa using hl)).mem_iff.mp hy
        have := mem_le_selectMax (x :: xs) hne y (List.mem_cons_of_mem x hy2)
        rwa [hm, List.getD_cons_zero] at this
      · rw [if_neg hm]
        obtain ⟨hmlt, _⟩ := selectMaxIdx_spec (x :: xs) hne
        cases hk : selectMaxIdx (x :: xs) with
        | zero => exact absurd hk hm
        | succ k =>
          rw [hk] at hmlt
          have hklt : k < xs.length := by simpa using hmlt
          simp only [hk, List.getD_cons_succ, List.set_cons_zero,
            List.set_cons_succ, List.headD_cons, List.tail_cons]
          refine List.Pairwise.cons ?_ (ih (xs.set k x) (by
            simp only [List.length_set]
            simpa using hl))
          intro y hy
          have hy2 : y ∈ xs.set k x :=
            (selSort_go_perm f (xs.set k x) (by
              simp only [List.length_set]
              simpa using hl)).mem_iff.mp hy
          have hy3 : y ∈ (x :: xs : List (Nat × Rat)) :=
            (cons_getD_set_perm xs k x hklt).mem_iff.mp (List.mem_cons_of_mem _ hy2)
          have := mem_le_selectMax (x :: xs) hne y hy3
          rwa [hk, List.getD_cons_succ] at this

/-- selSort output is sorted descending by similarity. -/
theorem selSort_sorted (l : List (Nat × Rat)) :
    (selSort l).Pairwise (fun a b => b.2 ≤ a.2) :=
  selSort_go_sorted l.length l (le_refl _)

/-- selSort permutes its input. -/
theorem selSort_perm (l : List (Nat × Rat)) : List.Perm (selSort l) l :=
  selSort_go_perm l.length l (le_refl _)

/-- C6 amended: similaritySearch results are sorted by similarity
descending; equal-similarity entries carry no ordering guarantee (the
in-place selection sort can reorder ties, as the counterexample shows). -/
theorem similarity_results_sorted_descending (target : Option (List Nat))
    (hash_len : Nat) (db : List (Option (List Nat))) (threshold : Rat)
    (res : List (Nat × Rat))
    (h : batch_similarity_search target hash_len db threshold = some res) :
    res.Pairwise (fun a b => b.2 ≤ a.2) := by
  cases target with
  | none => simp [batch_similarity_search] at h
  | some t =>
    simp only [batch_similarity_search] at h
    by_cases hg : db.length = 0 ∨ hash_len = 0
    · rw [if_pos hg] at h
      exact absurd h (by simp)
    · rw [if_neg hg] at h
      by_cases hc : batch_collect t hash_len db threshold = []
      · rw [if_pos hc] at h
        exact absurd h (by simp)
      · rw [if_neg hc] at h
        rw [← Option.some.inj h]
        exact selSort_sorted _

/-- Witness for the amended C6 claim on a one-candidate search. -/
theorem similarity_results_sorted_descending_witness :
    ([((0 : Nat), (1 : Rat))] : List (Nat × Rat)).Pairwise
      (fun a b => b.2 ≤ a.2) :=
  similarity_results_sorted_descending (some [0]) 1 [some [0]] 1 [(0, 1)]
    (by with_unfolding_all decide)

/-- C9: the threshold is an inclusive lower bound. Every present
candidate whose similarity 1 - distance/(8·hash_len) is at least the
threshold - equality included - appears in the returned result set. -/
theorem similarity_threshold_inclusive (t : List Nat) (hash_len : Nat)
    (db : List (Option (List Nat))) (threshold : Rat) (i : Nat) (c : List Nat)
    (hi : db[i]? = some (some c)) (hl0 : hash_len ≠ 0)
    (hsim : threshold ≤ 1 -
      ((hash_hamming_distance (some t) (some c) hash_len : Int) : Rat) /
        ((hash_len * 8 : Nat) : Rat)) :
    ∃ res, batch_similarity_search (some t) hash_len db threshold = some res ∧
      (i, 1 - ((hash_hamming_distance (some t) (some c) hash_len : Int) : Rat) /
        ((hash_len * 8 : Nat) : Rat)) ∈ res := by
  have hd : ¬ (hash_hamming_distance (some t) (some c) hash_len < 0) := by
    show ¬ ((hammingNat t c hash_len : Int) < 0)
    exact Int.not_lt.mpr (Int.natCast_nonneg _)
  have hmem : (i, 1 -
      ((hash_hamming_distance (some t) (some c) hash_len : Int) : Rat) /
        ((hash_len * 8 : Nat) : Rat)) ∈ batch_collect t hash_len db threshold := by
    apply List.mem_filterMap.mpr
    refine ⟨(i, some c), List.mk_mem_enum_iff_getElem?.mpr hi, ?_⟩
    simp only [if_neg hd, if_pos hsim]
  have hlen : i < db.length := by
    rcases List.getElem?_eq_some_iff.mp hi with ⟨hw, _⟩
    exact hw
  have hguard : ¬ (db.length = 0 ∨ hash_len = 0) := by
    push_neg
    exact ⟨by omega, hl0⟩
  have hcol : batch_collect t hash_len db threshold ≠ [] :=
    List.ne_nil_of_mem hmem
  refine ⟨selSort (batch_collect t hash_len db threshold), ?_, ?_⟩
  · simp only [batch_similarity_search]
    rw [if_neg hguard, if_neg hcol]
  · exact (selSort_perm _).mem_iff.mpr hmem

/-- Witness for C9: a self-match at threshold exactly 1 is returned. -/
theorem similarity_threshold_inclusive_witness :
    ∃ res, batch_similarity_search (some [0]) 1 [some [0]] 1 = some res ∧
      ((0 : Nat), 1 - ((hash_hamming_distance (some [0]) (some [0]) 1 : Int) : Rat) /
        ((1 * 8 : Nat) : Rat)) ∈ res :=
  similarity_threshold_inclusive [0] 1 [some [0]] 1 0 [0] (by decide) (by decide)
    (by with_unfolding_all decide)

/-- C8 amended: the empty-collection cases do return the "no results"
signal for both operations, and an empty target text yields no matches
provided no candidate is itself the empty string (an empty-string
candidate is matched, as the counterexample shows - the code does not
specially reject an empty target). -/
theorem batch_empty_inputs_no_results :
    (∀ t : Option (List Nat), batch_compare_hash t [] = none)
    ∧ (∀ (t : Option (List Nat)) (hl : Nat) (thr : Rat),
        batch_similarity_search t hl [] thr = none)
    ∧ (∀ db : List (Option (List Nat)), (∀ cnd ∈ db, cnd ≠ some []) →
        batch_compare_hash (some []) db = none) := by
  refine ⟨?_, ?_, ?_⟩
  · intro t
    cases t <;> simp [batch_compare_hash]
  · intro t hl thr
    cases t <;> simp [batch_similarity_search]
  · intro db hdb
    simp only [batch_compare_hash]
    by_cases hlen : db.length = 0
    · rw [if_pos hlen]
    · rw [if_neg hlen]
      have hnil : (db.enum.filterMap fun p =>
          if p.2 ≠ none ∧ hash_compare (some []) p.2 = 0 then some p.1
          else none) = [] := by
        apply List.filterMap_eq_nil_iff.mpr
        rintro ⟨j, cnd⟩ hp
        have hj : db[j]? = some cnd := List.mk_mem_enum_iff_getElem?.mp hp
        have hp2 : cnd ∈ db := by
          rcases List.getElem?_eq_some_iff.mp hj with ⟨hw, hval⟩
          rw [← hval]
          exact List.getElem_mem hw
        cases cnd with
        | none => simp
        | some str =>
          have hne : str ≠ [] := by
            intro he
            exact (hdb _ hp2) (by rw [he])
          simp [hash_compare, Ne.symm hne]
      rw [hnil]
      simp

/-- Witness for the amended C8 claim. -/
theorem batch_empty_inputs_no_results_witness :
    batch_compare_hash (some [5]) [] = none
    ∧ batch_similarity_search (some [5]) 1 [] 1 = none
    ∧ batch_compare_hash (some []) [some [1]] = none :=
  ⟨batch_empty_inputs_no_results.1 (some [5]),
   batch_empty_inputs_no_results.2.1 (some [5]) 1 1,
   batch_empty_inputs_no_results.2.2 [some [1]] (by decide)⟩

/-- C10: hash_compare reports a NULL digest (either side) as mismatch
(returns 1), and consequently batch_compare_hash never reports an index
whose candidate slot is NULL. -/
theorem null_digest_never_matches :
    (∀ b : Option (List Nat), hash_compare none b = 1)
    ∧ (∀ a : Option (List Nat), hash_compare a none = 1)
    ∧ (∀ (t : Option (List Nat)) (db : List (Option (List Nat)))
        (res : List Nat), batch_compare_hash t db = some res →
        ∀ i ∈ res, db.getD i none ≠ none) := by
  refine ⟨?_, ?_, ?_⟩
  · intro b
    cases b <;> rfl
  · intro a
    cases a <;> rfl
  · intro t db res h i hi
    cases t with
    | none => simp [batch_compare_hash] at h
    | some tt =>
      simp only [batch_compare_hash] at h
      by_cases hlen : db.length = 0
      · rw [if_pos hlen] at h
        exact absurd h (by simp)
      · rw [if_neg hlen] at h
        by_cases hhits : (db.enum.filterMap fun p =>
            if p.2 ≠ none ∧ hash_compare (some tt) p.2 = 0 then some p.1
            else none) = []
        · rw [if_pos hhits] at h
          exact absurd h (by simp)
        · rw [if_neg hhits] at h
          rw [← Option.some.inj h] at hi
          obtain ⟨⟨j, cnd⟩, hpm, hf⟩ := List.mem_filterMap.mp hi
          by_cases hcond : cnd ≠ none ∧ hash_compare (some tt) cnd = 0
          · rw [if_pos hcond] at hf
            have hj : db[j]? = some cnd := List.mk_mem_enum_iff_getElem?.mp hpm
            have hij : i = j := (Option.some.inj hf).symm
            subst hij
            rw [List.getD_eq_getElem?_getD, hj]
            exact hcond.1
          · rw [if_neg hcond] at hf
            exact absurd hf (by simp)

/-- Witness for C10 at concrete digests. -/
theorem null_digest_never_matches_witness :
    hash_compare none (some [1]) = 1
    ∧ hash_compare (some [1]) none = 1
    ∧ ([some ([2] : List Nat)].getD 0 none ≠ none) :=
  ⟨null_digest_never_matches.1 (some [1]),
   null_digest_never_matches.2.1 (some [1]),
   null_digest_never_matches.2.2 (some [2]) [some [2]] [0] (by decide) 0 (by decide)⟩

/-- C4 instantiated at concrete out-of-bounds junk bytes. -/
theorem tree_finalize_output_length_overrun_witness :
    (blake3_hasher_finalize blake3_hasher_init 1000 (List.replicate 32 0)).length
      = 1024 :=
  tree_finalize_output_length_overrun (List.replicate 32 0)

/-- C7 instantiated at a concrete two-piece split. -/
theorem tree_hash_streaming_invariance_witness :
    (([[1], [2, 3]] : List (List Nat)).foldl
        (fun (acc : Except CErr blake3_hasher) p =>
          acc.bind fun s => blake3_hasher_update s p) (.ok blake3_hasher_init)).map
      (fun s => blake3_hasher_finalize s 32 (List.replicate 32 0))
    = (blake3_hasher_update blake3_hasher_init ([[1], [2, 3]] : List (List Nat)).flatten).map
        (fun s => blake3_hasher_finalize s 32 (List.replicate 32 0)) :=
  tree_hash_streaming_invariance [[1], [2, 3]] 32 (List.replicate 32 0)
